import Mathlib

/-!
Verification of the zed-wolfram repository: a shallow embedding of
`grammars/wolfram/src/scanner.c` (the external comment tokenizer) and
`tools/generate-highlights.ts` (the highlight/bracket rule generator),
followed by theorems settling the specification claims.
-/

set_option maxRecDepth 10000

/-! ## Comment tokenizer (scanner.c) -/

/-- The `iswspace` predicate of the C standard library (C locale): space,
horizontal tab, newline, vertical tab, form feed, carriage return.
Used by `tree_sitter_wolfram_external_scanner_scan` to skip leading
whitespace. -/
def isWspace (c : Char) : Bool :=
  c = ' ' || c = '\t' || c = '\n' || c = '\x0b' || c = '\x0c' || c = '\r'

/-- Number of leading whitespace characters the entry point skips
(the `while (iswspace(lexer->lookahead)) advance(skip)` loop). -/
def countLeadingWspace : List Char → Nat
  | [] => 0
  | c :: rest => if isWspace c then countLeadingWspace rest + 1 else 0

/-- Embedding of `scan_comment` from `grammars/wolfram/src/scanner.c`,
entered after the opening characters were consumed; `d` is the `depth`
counter (initially 1 at the call site).  Returns `some n` when the loop
returns `true`, where `n` is the number of characters it advanced past
(so the comment token ends `n` positions after the entry position), and
`none` when the loop reaches end of input (the C function returns `false`).

Loop body, faithfully: on `'*'` the character is advanced past; if the
lookahead is `')'` the depth is decremented, and only when it reaches 0 is
the `')'` also advanced past, ending the token.  On `'('` the character is
advanced past; if the lookahead is `'*'` the depth is incremented, the `'*'`
itself is not advanced past.  Any other character is advanced past. -/
def scanComment : Int → List Char → Option Nat
  | _, [] => none
  | d, '*' :: rest =>
    match rest.head? with
    | some ')' =>
      if d - 1 = 0 then some 2
      else Option.map (· + 1) (scanComment (d - 1) rest)
    | _ => Option.map (· + 1) (scanComment d rest)
  | d, '(' :: rest =>
    match rest.head? with
    | some '*' => Option.map (· + 1) (scanComment (d + 1) rest)
    | _ => Option.map (· + 1) (scanComment d rest)
  | d, _ :: rest => Option.map (· + 1) (scanComment d rest)

/-- Embedding of `tree_sitter_wolfram_external_scanner_scan`: skip leading
whitespace (skipped characters are excluded from any token span), then if the
next two characters are `(` `*`, consume them and run `scan_comment`.
Result: `(token?, cursor)` where `token? = some e` means a COMMENT token
ending at offset `e` was produced (`lexer->mark_end` at `e`), and `cursor`
is the final input offset the lexer advanced to. -/
def scannerScan (input : List Char) : Option Nat × Nat :=
  let w := countLeadingWspace input
  let rest := input.drop w
  if rest.head? = some '(' then
    if rest.tail.head? = some '*' then
      match scanComment 1 rest.tail.tail with
      | some n => (some (w + 2 + n), w + 2 + n)
      | none => (none, w + 2 + rest.tail.tail.length)
    else (none, w + 1)
  else (none, w)

/-- Reference notion of a matching closing delimiter, formalising the
claims' "matching closing `*)` with properly nested interior pairs": read
the input after the opening `(*` left to right, greedily consuming `(*` as
a nested opener (depth + 1) and `*)` as a closer (depth - 1); `refScan d s =
some n` exactly when the closer matching the enclosing opener ends at
offset `n`, with all interior pairs properly nested. -/
def refScan : Int → List Char → Option Nat
  | _, [] => none
  | d, '(' :: '*' :: rest => Option.map (· + 2) (refScan (d + 1) rest)
  | d, '*' :: ')' :: rest =>
    if d - 1 = 0 then some 2 else Option.map (· + 2) (refScan (d - 1) rest)
  | d, _ :: rest => Option.map (· + 1) (refScan d rest)

/-- `true` when no suffix of the input starts with the three characters
`(`, `*`, `)` — the overlapping delimiter pattern on which `scan_comment`
and the greedy reference reading disagree. -/
def noNestedOpenClose : List Char → Bool
  | [] => true
  | c :: rest =>
    !(c == '(' && rest.head? == some '*' && rest.tail.head? == some ')')
      && noNestedOpenClose rest

/-- Modelled from the claim's words (claim C2): a variant of `scan_comment`
in which a nested `(*` opener consumes both of its characters when the depth
is incremented, so that its `*` can never be re-read as the first character
of a closing `*)`.  Identical to `scanComment` in every other case. -/
def specNestedOpen : Int → List Char → Option Nat
  | _, [] => none
  | d, '*' :: rest =>
    match rest.head? with
    | some ')' =>
      if d - 1 = 0 then some 2
      else Option.map (· + 1) (specNestedOpen (d - 1) rest)
    | _ => Option.map (· + 1) (specNestedOpen d rest)
  | d, '(' :: '*' :: rest => Option.map (· + 2) (specNestedOpen (d + 1) rest)
  | d, _ :: rest => Option.map (· + 1) (specNestedOpen d rest)

/-! ## Highlight generator (tools/generate-highlights.ts): trie expansion -/

/-- Helper for `splitTopLevel`: returns the first part (text up to the next
top-level `|`) and the list of remaining parts.  Depth is incremented at `(`
and decremented at `)` (it may go negative, as in the source); a `|` splits
only at depth 0. -/
def splitTLAux : Int → List Char → List Char × List (List Char)
  | _, [] => ([], [])
  | d, c :: rest =>
    if c = '(' then
      let r := splitTLAux (d + 1) rest
      (c :: r.1, r.2)
    else if c = ')' then
      let r := splitTLAux (d - 1) rest
      (c :: r.1, r.2)
    else if c = '|' ∧ d = 0 then
      let r := splitTLAux d rest
      ([], r.1 :: r.2)
    else
      let r := splitTLAux d rest
      (c :: r.1, r.2)

/-- Embedding of `splitTopLevel`: split a string by `|` at parenthesis
depth 0. -/
def splitTopLevel (s : List Char) : List (List Char) :=
  let r := splitTLAux 0 s
  r.1 :: r.2

/-- The scan at the top of `doExpand`: is there a `|` at depth 0 (which makes
`doExpand` split the whole string instead of isolating a group)? -/
def hasTopLevelBar : Int → List Char → Bool
  | _, [] => false
  | d, c :: rest =>
    if c = '(' then hasTopLevelBar (d + 1) rest
    else if c = ')' then hasTopLevelBar (d - 1) rest
    else if c = '|' ∧ d = 0 then true
    else hasTopLevelBar d rest

/-- The scan at the top of `doExpand`: the value of `parenStart`, i.e. the
index of the last `(` encountered while the running depth was 0. -/
def lastTopParenAux : Int → Nat → Option Nat → List Char → Option Nat
  | _, _, acc, [] => acc
  | d, i, acc, c :: rest =>
    if c = '(' then lastTopParenAux (d + 1) (i + 1) (if d = 0 then some i else acc) rest
    else if c = ')' then lastTopParenAux (d - 1) (i + 1) acc rest
    else lastTopParenAux d (i + 1) acc rest

def lastTopParen (s : List Char) : Option Nat := lastTopParenAux 0 0 none s

/-- The matching-close scan in `doExpand` (`parenEnd`): starting at index `i`
(the list argument is the input suffix from `i`) with depth 0, return the
index of the `)` at which the depth returns to 0. -/
def findCloseAux : Int → Nat → List Char → Option Nat
  | _, _, [] => none
  | d, i, c :: rest =>
    if c = '(' then findCloseAux (d + 1) (i + 1) rest
    else if c = ')' then
      (if d - 1 = 0 then some i else findCloseAux (d - 1) (i + 1) rest)
    else findCloseAux d (i + 1) rest

/-- Embedding of `doExpand`: recursively expand a trie-compressed regex
alternation into the literal names it denotes.  A `fuel` argument makes the
recursion structural: every recursive call of the source is on a strictly
shorter string (a top-level alternative of the whole string, which loses at
least the `|`, or `prefix ++ alternative ++ suffix`, which loses the two
parentheses of the isolated group), so the initial fuel of `length + 1`
supplied by `expandTrie` is never exhausted. -/
def doExpand (fuel : Nat) (s : List Char) : List (List Char) :=
  match fuel with
  | 0 => []
  | fuel + 1 =>
    if hasTopLevelBar 0 s then
      (splitTopLevel s).flatMap (fun alt => doExpand fuel alt)
    else
      match lastTopParen s with
      | none => if s.length > 0 then [s] else []
      | some p =>
        let pre := s.take p
        match findCloseAux 0 p (s.drop p) with
        | none => if pre.length > 0 then [pre] else []
        | some pe =>
          let inner := (s.drop (p + 1)).take (pe - (p + 1))
          let suf := s.drop (pe + 1)
          let inner2 := if inner.take 2 = ['?', ':'] then inner.drop 2 else inner
          (splitTopLevel inner2).flatMap (fun alt => doExpand fuel (pre ++ alt ++ suf))

/-- Embedding of `expandTrie`. -/
def expandTrie (s : List Char) : List (List Char) := doExpand (s.length + 1) s

/-- The regex replace of `^System[`\\`]` with the empty string in
`extractSymbolNames`: the character class `` [`\\`] `` contains exactly the
backtick and the backslash, so the replace removes a leading `System`
followed by ONE such character — for the escaped form ``System\` `` only the
backslash is consumed and the backtick is left in place. -/
def stripSystemHead (s : List Char) : List Char :=
  match s with
  | 'S' :: 'y' :: 's' :: 't' :: 'e' :: 'm' :: c :: rest =>
    if c = '\x60' ∨ c = '\\' then rest else s
  | _ => s

/-- A character matched by `.` in a JavaScript regex (anything but a line
terminator). -/
def isRegexDot (c : Char) : Bool :=
  !(c = '\n' || c = '\r' || c = '\u2028' || c = '\u2029')

/-- Shape `middle ++ [']', ')']` with every `middle` character matchable by
`.` — the continuation of a match of the regex `\(\?!\[.*\]\)$` after its
`(?![` head. -/
def midThenClose : List Char → Bool
  | [']', ')'] => true
  | c :: rest => isRegexDot c && midThenClose rest
  | [] => false

/-- Does the whole list match `\(\?!\[.*\]\)$` (so the regex replace removes
everything from here to the end)? -/
def lookaheadWhole : List Char → Bool
  | '(' :: '?' :: '!' :: '[' :: rest => midThenClose rest
  | _ => false

/-- The regex replace of the trailing negative-lookahead guard
`\(\?!\[.*\]\)$` with the empty string: cut the string at the leftmost
position where a `(?![ ... ])` run extends exactly to the end. -/
def stripLookahead : List Char → List Char
  | [] => []
  | c :: rest =>
    if lookaheadWhole (c :: rest) then []
    else c :: stripLookahead rest

/-- The balance check run before unwrapping an outer `(?: ... )` group:
depth never drops below 0 and ends at 0. -/
def balancedGroup : Int → List Char → Bool
  | d, [] => d = 0
  | d, c :: rest =>
    if c = '(' then balancedGroup (d + 1) rest
    else if c = ')' then (if d - 1 < 0 then false else balancedGroup (d - 1) rest)
    else balancedGroup d rest

/-- Outer non-capturing group unwrap in `extractSymbolNames`: when the
pattern starts with `(?:`, ends with `)` and the interior is balanced, the
pattern is replaced by the interior. -/
def unwrapOuter (s : List Char) : List Char :=
  match s with
  | '(' :: '?' :: ':' :: rest =>
    if rest.getLast? = some ')' then
      (if balancedGroup 0 rest.dropLast then rest.dropLast else s)
    else s
  | _ => s

/-- First character of a Wolfram symbol name per the final filter regex
`^[$A-Za-z][$A-Za-z0-9]*$`. -/
def isSymbolHeadChar (c : Char) : Bool :=
  c = '$' || ('A' ≤ c && c ≤ 'Z') || ('a' ≤ c && c ≤ 'z')

def isSymbolTailChar (c : Char) : Bool :=
  isSymbolHeadChar c || ('0' ≤ c && c ≤ '9')

/-- The final filter of `extractSymbolNames`: `^[$A-Za-z][$A-Za-z0-9]*$`. -/
def isValidSymbolName : List Char → Bool
  | [] => false
  | c :: rest => isSymbolHeadChar c && rest.all isSymbolTailChar

/-- Embedding of `extractSymbolNames`: strip the `System` namespace head,
strip a trailing negative-lookahead guard, unwrap an outer non-capturing
group, expand the trie, and keep only well-shaped symbol names. -/
def extractSymbolNames (p : List Char) : List (List Char) :=
  (expandTrie (unwrapOuter (stripLookahead (stripSystemHead p)))).filter isValidSymbolName

/-! ## Highlight generator: match blocks -/

/-- JavaScript `names.join("|")` — the alternation text of a block. -/
def joinBar : List String → String
  | [] => ""
  | [n] => n
  | n :: rest => n ++ "|" ++ joinBar rest

/-- The regex text built by `formatMatchBlock`. -/
def blockRegex (names : List String) : String :=
  "^(" ++ joinBar names ++ ")$"

/-- Embedding of `formatMatchBlock`. -/
def formatMatchBlock (capture : String) (names : List String) (nodeType : String) : String :=
  "((" ++ nodeType ++ ") @" ++ capture ++ "\n  (#match? @" ++ capture ++ " \"" ++
    blockRegex names ++ "\"))"

/-- `[...new Set(names)]`: first-occurrence deduplication (`seen` collects
the names already kept). -/
def setDedupAux (seen : List String) : List String → List String
  | [] => []
  | x :: rest => if x ∈ seen then setDedupAux seen rest else x :: setDedupAux (x :: seen) rest

def setDedup (names : List String) : List String := setDedupAux [] names

/-- JavaScript string comparison, `a` sorts no later than `b`: lexicographic
over UTF-16 code units, here over characters (identical on the ASCII symbol
names the generator handles). -/
def jsLeb : List Char → List Char → Bool
  | [], _ => true
  | _ :: _, [] => false
  | a :: as, b :: bs => if a < b then true else if b < a then false else jsLeb as bs

def strLeb (a b : String) : Bool := jsLeb a.data b.data

/-- `.sort()`: the JavaScript default sort compares strings
lexicographically; on a duplicate-free list every comparison sort produces
the same, unique sorted permutation, here realised by insertion sort over
the JavaScript comparison. -/
def sortNames (names : List String) : List String :=
  List.insertionSort (fun a b => strLeb a b = true) names

/-- The batching loop of `generateMatchBlocks`: walk the sorted names,
flushing the current batch (accumulated in reverse) before a name that would
push the running length past `maxRegexLen`; the first name of a batch is
pushed unconditionally. -/
def batchNames (maxRegexLen : Nat) : List String → List String → Nat → List (List String)
  | [], batch, _ => if batch = [] then [] else [batch.reverse]
  | name :: rest, batch, currentLen =>
    if currentLen + name.length + 1 > maxRegexLen ∧ batch ≠ [] then
      batch.reverse :: batchNames maxRegexLen rest [name] (name.length + 1)
    else
      batchNames maxRegexLen rest (name :: batch) (currentLen + name.length + 1)

/-- The sorted, deduplicated batches that `generateMatchBlocks` formats. -/
def matchBatches (names : List String) (maxRegexLen : Nat) : List (List String) :=
  batchNames maxRegexLen (sortNames (setDedup names)) [] 0

/-- Embedding of `generateMatchBlocks` (node type and regex length limit
passed explicitly; `main` uses "symbol" and 4000). -/
def generateMatchBlocks (capture : String) (names : List String) (nodeType : String)
    (maxRegexLen : Nat) : String :=
  String.intercalate "\n\n" ((matchBatches names maxRegexLen).map
    (fun b => formatMatchBlock capture b nodeType))

/-- Sum over a list of names of (length + 1): the length the batching loop
tracks in `currentLen`. -/
def sumLens (l : List String) : Nat := (l.map (fun n => n.length + 1)).sum

/-! ## Match-block regex semantics (formatMatchBlock) -/

/-- Abstract syntax of the regexes `formatMatchBlock` emits: the empty
regex, literal characters, concatenation, alternation, and the two anchors
`^` and `$`. -/
inductive RE : Type where
  | eps : RE
  | char : Char → RE
  | seq : RE → RE → RE
  | alt : RE → RE → RE
  | bol : RE
  | eol : RE

/-- Standard regex matching semantics over a subject `t`: `REMatch t i j r`
means regex `r` matches the span of `t` from offset `i` to offset `j`
(anchors constrain the offsets and consume nothing).  A regex engine finds a
match in `t` when some span matches, so an expression anchored on both sides
matches only the whole subject. -/
inductive REMatch (t : List Char) : Nat → Nat → RE → Prop where
  | eps (i : Nat) : REMatch t i i .eps
  | char (i : Nat) (c : Char) (h : (t.drop i).head? = some c) :
      REMatch t i (i + 1) (.char c)
  | seq {i k j : Nat} {a b : RE} :
      REMatch t i k a → REMatch t k j b → REMatch t i j (.seq a b)
  | altL {i j : Nat} {a b : RE} : REMatch t i j a → REMatch t i j (.alt a b)
  | altR {i j : Nat} {a b : RE} : REMatch t i j b → REMatch t i j (.alt a b)
  | bol : REMatch t 0 0 .bol
  | eol : REMatch t t.length t.length .eol

/-- The regex denoting one literal name. -/
def litRE : List Char → RE
  | [] => .eps
  | c :: rest => .seq (.char c) (litRE rest)

/-- Left-nested alternation of a list of regexes, the shape denoted by
`n1|n2|...|nk`. -/
def altOf : List RE → RE
  | [] => .eps
  | r :: rest => rest.foldl (fun acc x => .alt acc x) r

/-- The abstract syntax of `blockRegex names = "^(" ++ joinBar names ++ ")$"`
for metacharacter-free names: both anchors around the alternation of the
literal names (the non-capturing group structure does not change the
denotation). -/
def blockRE (names : List (List Char)) : RE :=
  .seq .bol (.seq (altOf (names.map litRE)) .eol)

/-! ## Highlight generator: document assembly (main) -/

/-- The `SCOPE_MAP` table: TextMate scope name to tree-sitter capture
(`none` = skip). -/
def SCOPE_MAP : List (String × Option String) :=
  [("support.function.builtin.wolfram", some "function.builtin"),
   ("constant.language.wolfram", some "constant.builtin"),
   ("support.function.experimental.wolfram", some "function.builtin"),
   ("support.function.undocumented.wolfram", some "function"),
   ("invalid.deprecated.wolfram", some "attribute"),
   ("invalid.bad.wolfram", none),
   ("invalid.illegal.wolfram", none),
   ("invalid.illegal.system.wolfram", none),
   ("invalid.session.wolfram", some "variable.special"),
   ("variable.function.wolfram", none),
   ("symbol.unrecognized.wolfram", none)]

/-- First-match association lookup (JavaScript `Map.get` over the insertion
order of an association list). -/
def assocLookup {α : Type} : List (String × α) → String → Option α
  | [], _ => none
  | (s, v) :: rest, key => if s = key then some v else assocLookup rest key

def headerSection : String :=
  "; Auto-generated by tools/generate-highlights.ts\n; Source: vscode-wolfram (https://github.com/WolframResearch/vscode-wolfram)\n; Do not edit manually — run: npm run generate"

def commentSection : String := "; Comments\n(comment) @comment"

def stringSection : String := "; Strings\n(string) @string"

def numberSection : String := "; Numbers\n(integer) @number\n(real) @number"

/-- The generic all-symbols fallback rule: every symbol node gets the
"variable" capture.  In the source this section is pushed before the
scope-specific match blocks, with the comment "must come BEFORE specific
matches". -/
def symbolFallbackSection : String :=
  "; Symbols (generic fallback — must come before specific matches)\n(symbol) @variable"

def callSection : String := "; Function calls\n(call head: (symbol) @function)"

def systemVarSection : String :=
  "; System variables starting with $\n((symbol) @constant.builtin\n  (#match? @constant.builtin \"^\\\\$\"))"

def assignmentSection : String :=
  "; Assignment operators\n\"=\" @keyword.operator\n\":=\" @keyword.operator\n\"^=\" @keyword.operator\n\"^:=\" @keyword.operator\n\"+=\" @keyword.operator\n\"-=\" @keyword.operator\n\"*=\" @keyword.operator\n\"/=\" @keyword.operator\n\"//=\" @keyword.operator"

def ruleOpSection : String :=
  "; Rule operators\n\"->\" @operator\n\":>\" @operator\n\"<->\" @operator\n\"|->\" @operator"

def comparisonSection : String :=
  "; Comparison operators\n\"==\" @operator\n\"!=\" @operator\n\"===\" @operator\n\"=!=\" @operator\n\"<\" @operator\n\"<=\" @operator\n\">\" @operator\n\">=\" @operator"

def logicalSection : String :=
  "; Logical operators\n\"&&\" @operator\n\"||\" @operator\n\"!\" @operator"

def arithmeticSection : String :=
  "; Arithmetic operators\n\"+\" @operator\n\"-\" @operator\n\"*\" @operator\n\"/\" @operator\n\"^\" @operator\n\".\" @operator\n\"**\" @operator"

def applicationSection : String :=
  "; Application operators\n\"@\" @operator\n\"@@\" @operator\n\"@@@\" @operator\n\"/@\" @operator\n\"//@\" @operator\n\"//\" @operator\n\"~~\" @operator"

def otherOpSection : String :=
  "; Other operators\n\"&\" @operator\n\"/;\" @operator\n\"/.\" @operator\n\"//.\" @operator\n\"..\" @operator\n\"...\" @operator\n\"\x27\" @operator\n\"!!\" @operator\n\"++\" @operator\n\"--\" @operator\n\"<>\" @operator\n\"/*\" @operator\n\"@*\" @operator\n\"?\" @operator"

def delimiterSection : String :=
  "; Delimiters\n\"(\" @punctuation.bracket\n\")\" @punctuation.bracket\n\"[\" @punctuation.bracket\n\"]\" @punctuation.bracket\n\"\x7b\" @punctuation.bracket\n\"\x7d\" @punctuation.bracket\n\"<|\" @punctuation.bracket\n\"|>\" @punctuation.bracket"

def separatorSection : String :=
  "; Separators\n\",\" @punctuation.delimiter\n\";\" @punctuation.delimiter"

/-- The scope-specific sections of `main`: walk `SCOPE_MAP` in order; skip
entries with no capture, no extracted names, or an empty name list; each
kept entry contributes a comment line plus its generated match blocks.
(Each scope label contains the substring ".wolfram" exactly once, so
replacing every occurrence agrees with the source's replace-first.) -/
def scopeSections (symbolsByScope : List (String × List String)) : List String :=
  SCOPE_MAP.filterMap (fun p =>
    match p.2 with
    | none => none
    | some capture =>
      match assocLookup symbolsByScope p.1 with
      | none => none
      | some names =>
        if names.length = 0 then none
        else some ("; " ++ (p.1.replace ".wolfram" "") ++ " (from vscode-wolfram)\n" ++
          generateMatchBlocks capture names "symbol" 4000))

/-- The highlight document's section list, in the fixed order of `main`:
header, comment/string/number rules, the generic symbol fallback, the
call-head rule, the system-variable rule, then the scope-derived match
blocks, then the fixed operator/punctuation sections. -/
def buildSections (symbolsByScope : List (String × List String)) : List String :=
  [headerSection, commentSection, stringSection, numberSection, symbolFallbackSection,
   callSection, systemVarSection]
    ++ scopeSections symbolsByScope
    ++ [assignmentSection, ruleOpSection, comparisonSection, logicalSection,
        arithmeticSection, applicationSection, otherOpSection, delimiterSection,
        separatorSection]

/-- `sections.join("\n\n") + "\n"`, the byte content written to
highlights.scm. -/
def buildHighlights (symbolsByScope : List (String × List String)) : String :=
  String.intercalate "\n\n" (buildSections symbolsByScope) ++ "\n"

/-- The byte content written to brackets.scm (fixed, independent of the
extracted data). -/
def bracketsDoc : String :=
  "; Auto-generated by tools/generate-highlights.ts\n(\"(\" @open \")\" @close)\n(\"[\"  @open \"]\"  @close)\n(\"\x7b\"  @open \"\x7d\"  @close)\n(\"<|\" @open \"|>\" @close)\n"

/-- One entry of the grammar description's symbol-pattern category: an
optional `match` regular expression and an optional `name` scope label. -/
structure TmPattern where
  matchExpr : Option String
  name : Option String

/-- The grammar description document: a repository mapping category names to
pattern lists; only the "symbols" category is consumed. -/
structure TmGrammar where
  repository : List (String × List TmPattern)

def symbolPatterns (g : TmGrammar) : List TmPattern :=
  (assocLookup g.repository "symbols").getD []

/-- `symbolsByScope.get(scope).push(...names)` preceded by insertion of an
empty entry when absent: append to the scope's list, creating the entry at
the end on first use (JavaScript `Map` insertion order). -/
def addNames (m : List (String × List String)) (scope : String) (names : List String) :
    List (String × List String) :=
  match m with
  | [] => [(scope, names)]
  | (s, ns) :: rest =>
    if s = scope then (s, ns ++ names) :: rest else (s, ns) :: addNames rest scope names

/-- The extraction loop of `main`: for each pattern entry with both a
(non-empty: JavaScript truthiness) match expression and scope label, extract
its symbol names; skip entries whose extraction yields no names; accumulate
per scope. -/
def collectSymbols (pats : List TmPattern) : List (String × List String) :=
  pats.foldl (fun acc p =>
    match p.matchExpr, p.name with
    | some m, some scope =>
      if m = "" ∨ scope = "" then acc
      else
        let names := (extractSymbolNames m.data).map (fun cs => String.mk cs)
        if names.length = 0 then acc
        else addNames acc scope names
    | _, _ => acc) []

/-- The generator's state: the (read-only) grammar description plus the two
output files; a run reads the grammar and overwrites both outputs with fully
assembled documents. -/
structure GenState where
  grammar : TmGrammar
  highlightsOut : Option String
  bracketsOut : Option String

/-- One full run of `main`: read the grammar, extract the per-scope symbol
names, assemble both documents in memory, write them. -/
def runGenerator (st : GenState) : GenState :=
  ⟨st.grammar, some (buildHighlights (collectSymbols (symbolPatterns st.grammar))),
   some bracketsDoc⟩

/-! ## Lemmas and claim theorems -/

theorem noNestedOpenClose_tail {c : Char} {rest : List Char}
    (h : noNestedOpenClose (c :: rest) = true) : noNestedOpenClose rest = true := by
  simp [noNestedOpenClose] at h
  exact h.2

theorem scanComment_eq_refScan :
    ∀ (n : Nat) (s : List Char), s.length ≤ n → ∀ d : Int, 1 ≤ d →
      noNestedOpenClose s = true → scanComment d s = refScan d s := by
  intro n
  induction n with
  | zero =>
    intro s hs d _ _
    have hnil : s = [] := List.length_eq_zero.mp (Nat.le_zero.mp hs)
    subst hnil; rfl
  | succ n ih =>
    intro s hs d hd hnoc
    rcases s with _ | ⟨c, rest⟩
    · rfl
    · have hrest : noNestedOpenClose rest = true := noNestedOpenClose_tail hnoc
      by_cases hc1 : c = '*'
      · subst hc1
        rcases rest with _ | ⟨c2, rest2⟩
        · simp [scanComment, refScan]
        · have hrest2 : noNestedOpenClose rest2 = true := noNestedOpenClose_tail hrest
          by_cases hc2 : c2 = ')'
          · subst hc2
            by_cases hd0 : d - 1 = 0
            · simp [scanComment, refScan, hd0]
            · have hd2 : (1 : Int) ≤ d - 1 := by omega
              have hih : scanComment (d - 1) rest2 = refScan (d - 1) rest2 :=
                ih rest2 (by simp at hs; omega) (d - 1) hd2 hrest2
              simp [scanComment, refScan, hd0, hih]
          · have hih : scanComment d (c2 :: rest2) = refScan d (c2 :: rest2) :=
              ih (c2 :: rest2) (by simp at hs ⊢; omega) d hd hrest
            simp [scanComment, refScan, hc2, hih]
      · by_cases hc3 : c = '('
        · subst hc3
          rcases rest with _ | ⟨c2, rest2⟩
          · simp [scanComment, refScan]
          · by_cases hc4 : c2 = '*'
            · subst hc4
              have hrest2 : noNestedOpenClose rest2 = true := noNestedOpenClose_tail hrest
              -- noNOC at the '(' gives rest2.head? ≠ some ')'
              have hnr : rest2.head? ≠ some ')' := by
                simp [noNestedOpenClose] at hnoc
                simpa using hnoc.1
              have hih : scanComment (d + 1) rest2 = refScan (d + 1) rest2 :=
                ih rest2 (by simp at hs; omega) (d + 1) (by omega) hrest2
              simp [scanComment, refScan, hnr, hih]
            · have hih : scanComment d (c2 :: rest2) = refScan d (c2 :: rest2) :=
                ih (c2 :: rest2) (by simp at hs ⊢; omega) d hd hrest
              simp [scanComment, refScan, hc4, hih]
        · have hih : scanComment d rest = refScan d rest :=
            ih rest (by simp at hs; omega) d hd hrest
          simp [scanComment, refScan, hc1, hc3, hih]

theorem countLeadingWspace_openParen (s : List Char) :
    countLeadingWspace ('(' :: s) = 0 := rfl

/-- Claim C1 (amended): for every input that begins with `(*` and contains a
matching closing `*)` with properly nested interior pairs (per the greedy
reference reading `refScan`), and in which the overlapping pattern `(*)`
never occurs after the opening delimiter, the scan produces exactly one
COMMENT token spanning from the opening `(*` through the matching closing
`*)`, its end position exactly one past the closing `)`. -/
theorem comment_wellNested_token_end (s : List Char) (n : Nat)
    (hnoc : noNestedOpenClose s = true) (href : refScan 1 s = some n) :
    scannerScan ('(' :: '*' :: s) = (some (2 + n), 2 + n) := by
  have heq : scanComment 1 s = refScan 1 s :=
    scanComment_eq_refScan s.length s (le_refl _) 1 (by omega) hnoc
  simp [scannerScan, countLeadingWspace, isWspace, heq, href]

theorem comment_wellNested_token_end_witness :
    noNestedOpenClose (String.toList " outer (* inner *) still outer *)") = true ∧
    refScan 1 (String.toList " outer (* inner *) still outer *)") = some 33 ∧
    scannerScan ('(' :: '*' :: String.toList " outer (* inner *) still outer *)") =
      (some (2 + 33), 2 + 33) :=
  ⟨by decide, by decide,
    comment_wellNested_token_end (String.toList " outer (* inner *) still outer *)") 33
      (by decide) (by decide)⟩

/-- Claim C1 counterexample: the input `(* (*) x *) *)` begins with `(*` and,
under the greedy reference reading, has its matching closing `*)` at the very
end (`refScan` returns 12, i.e. end position 14); yet the scanner emits a
COMMENT token ending at position 11 (just after the first `*)`), not 14:
faced with `(*`, `scan_comment` increments the depth without consuming the
`*`, then re-reads that `*` together with the following `)` as a closer, so
the nested group `(* )` opened at position 3 is treated as already closed. -/
theorem comment_wellNested_counterexample :
    refScan 1 (String.toList " (*) x *) *)") = some 12 ∧
    scannerScan (String.toList "(* (*) x *) *)") = (some 11, 11) ∧
    scannerScan (String.toList "(* (*) x *) *)") ≠ (some (2 + 12), 2 + 12) :=
  ⟨by decide, by decide, by decide⟩

/-- Claim C2 (amended): while comment scanning runs, on a `(` whose following
character is `*` the scanner consumes only the `(` and increments the depth;
the `*` is left as the next character, available to be re-read as the first
character of a closing `*)` — in particular the three-character sequence
`(*)` raises the depth and immediately lowers it back. -/
theorem comment_nested_open_step (d : Int) (rest rest2 : List Char) (hd : 1 ≤ d) :
    scanComment d ('(' :: '*' :: rest) =
      Option.map (· + 1) (scanComment (d + 1) ('*' :: rest)) ∧
    scanComment d ('(' :: '*' :: ')' :: rest2) =
      Option.map (· + 3) (scanComment d rest2) := by
  have h1 : ¬(d + 1 - 1 = 0) := by omega
  have h0 : ¬(d = 0) := by omega
  constructor
  · simp [scanComment]
  · simp [scanComment, h1, h0]

theorem comment_nested_open_step_witness :
    scanComment 1 ('(' :: '*' :: String.toList ")x") =
      Option.map (· + 1) (scanComment (1 + 1) ('*' :: String.toList ")x")) ∧
    scanComment 1 ('(' :: '*' :: ')' :: String.toList "*)") =
      Option.map (· + 3) (scanComment 1 (String.toList "*)")) :=
  comment_nested_open_step 1 (String.toList ")x") (String.toList "*)") (by decide)

/-- Claim C2 counterexample: the claim's consumption discipline (nested `(*`
consumed as a whole, its `*` never re-read) rejects the input `(*(*)*)` as
unterminated, while the scanner accepts it as a single COMMENT token covering
the whole string; at depth 1 the remaining input `(*)*)` yields a token of
length 5 for the code but no token under the claim's discipline. -/
theorem comment_nested_open_counterexample :
    scanComment 1 (String.toList "(*)*)") = some 5 ∧
    specNestedOpen 1 (String.toList "(*)*)") = none ∧
    scannerScan (String.toList "(*(*)*)") = (some 7, 7) :=
  ⟨by decide, by decide, by decide⟩

/-- Claim C3: when a comment is opened by `(*` and `scan_comment` exhausts
the input while its depth is still positive (its only failing exit), the
scan returns failure and produces no token; the cursor has advanced to the
end of input. -/
theorem comment_unterminated_fails (s : List Char)
    (h : scanComment 1 s = none) :
    scannerScan ('(' :: '*' :: s) = (none, 2 + s.length) := by
  simp [scannerScan, countLeadingWspace, isWspace, h]

theorem comment_unterminated_fails_witness :
    scanComment 1 (String.toList " unterminated") = none ∧
    scannerScan ('(' :: '*' :: String.toList " unterminated") =
      (none, 2 + (String.toList " unterminated").length) :=
  ⟨by decide, comment_unterminated_fails _ (by decide)⟩

/-- Claim C9: when the first non-whitespace character is `(` but the next
character is not `*`, the scan fails having advanced the cursor one past the
`(` (the `(` is consumed, non-skipped, with no token produced); when the
first non-whitespace character is not `(`, the scan fails with the cursor
advanced over the whitespace only. -/
theorem scan_paren_no_star (input : List Char) :
    (((input.drop (countLeadingWspace input)).head? = some '(' ∧
        (input.drop (countLeadingWspace input)).tail.head? ≠ some '*') →
      scannerScan input = (none, countLeadingWspace input + 1)) ∧
    ((input.drop (countLeadingWspace input)).head? ≠ some '(' →
      scannerScan input = (none, countLeadingWspace input)) := by
  constructor
  · rintro ⟨h1, h2⟩
    simp only [scannerScan]
    rw [if_pos h1, if_neg h2]
  · intro h
    simp only [scannerScan]
    rw [if_neg h]

theorem scan_paren_no_star_witness :
    scannerScan (String.toList "(x") = (none, countLeadingWspace (String.toList "(x") + 1) ∧
    scannerScan (String.toList " y(") = (none, countLeadingWspace (String.toList " y(")) :=
  ⟨(scan_paren_no_star (String.toList "(x")).1 ⟨by decide, by decide⟩,
   (scan_paren_no_star (String.toList " y(")).2 (by decide)⟩

/-- Claim C4: trie expansion of the compressed match expression
`A(?:bs|dd|rg)` yields exactly Abs, Add, Arg, and expansion of
`X(?:ML(?:Element|Object)|YZColor|nor|or)` yields exactly XMLElement,
XMLObject, XYZColor, Xnor, Xor — no name added, lost, or duplicated. -/
theorem expandTrie_compressed_examples :
    expandTrie (String.toList "A(?:bs|dd|rg)") =
      [String.toList "Abs", String.toList "Add", String.toList "Arg"] ∧
    expandTrie (String.toList "X(?:ML(?:Element|Object)|YZColor|nor|or)") =
      [String.toList "XMLElement", String.toList "XMLObject", String.toList "XYZColor",
       String.toList "Xnor", String.toList "Xor"] :=
  ⟨by decide, by decide⟩

/-- Claim C5 (amended): for a match expression formed of `System`, an
UNESCAPED backtick, and a remainder that does not itself begin with `System`
followed by a backtick or backslash, extraction strips the whole namespace
head and recovers exactly the names of the remainder alone.  (For the
escaped form the strip removes only the backslash — see the
counterexample.) -/
theorem extract_system_head_strip (rest : List Char)
    (h : stripSystemHead rest = rest) :
    extractSymbolNames ('S' :: 'y' :: 's' :: 't' :: 'e' :: 'm' :: '\x60' :: rest) =
      extractSymbolNames rest := by
  unfold extractSymbolNames
  have hstrip : stripSystemHead ('S' :: 'y' :: 's' :: 't' :: 'e' :: 'm' :: '\x60' :: rest) = rest := by
    simp [stripSystemHead]
  rw [hstrip, h]

theorem extract_system_head_strip_witness :
    stripSystemHead (String.toList "Abs") = String.toList "Abs" ∧
    extractSymbolNames ('S' :: 'y' :: 's' :: 't' :: 'e' :: 'm' :: '\x60' :: String.toList "Abs") =
      extractSymbolNames (String.toList "Abs") :=
  ⟨by decide, extract_system_head_strip (String.toList "Abs") (by decide)⟩

/-- Claim C5 counterexample: for the ESCAPED namespace form the strip regex
consumes `System` plus only the backslash, leaving the backtick in place, so
the names recovered are not those of the expression without its prefix.  At
`System` + backslash-backtick + `Abs` the one expanded name keeps the
leftover backtick and is discarded by the symbol-name filter, so nothing is
recovered, while `Abs` alone yields [Abs].  The leftover backtick attaches
only to the first top-level alternative, so later alternatives survive:
`System` + backslash-backtick + `Abs|Add` recovers [Add], while `Abs|Add`
alone yields [Abs, Add] — in both cases the escaped prefix changes the
result, refuting the claim's "whether escaped or unescaped". -/
theorem extract_system_escaped_counterexample :
    extractSymbolNames (String.toList "System\\`Abs") = [] ∧
    extractSymbolNames (String.toList "Abs") = [String.toList "Abs"] ∧
    stripSystemHead (String.toList "System\\`Abs") = String.toList "`Abs" ∧
    extractSymbolNames (String.toList "System\\`Abs|Add") = [String.toList "Add"] ∧
    extractSymbolNames (String.toList "Abs|Add") =
      [String.toList "Abs", String.toList "Add"] :=
  ⟨by decide, by decide, by decide, by decide, by decide⟩

theorem sumLens_nil : sumLens [] = 0 := rfl

theorem sumLens_cons (n : String) (l : List String) :
    sumLens (n :: l) = n.length + 1 + sumLens l := by
  simp [sumLens]

theorem sumLens_reverse (l : List String) : sumLens l.reverse = sumLens l := by
  simp [sumLens, List.map_reverse, List.sum_reverse]

theorem joinBar_length : ∀ (b : List String), b ≠ [] → (joinBar b).length + 1 = sumLens b := by
  intro b
  induction b with
  | nil => intro h; exact absurd rfl h
  | cons n rest ih =>
    intro _
    rcases rest with _ | ⟨m, rest2⟩
    · simp [joinBar, sumLens]
    · have hr := ih (by simp)
      have hstep : joinBar (n :: m :: rest2) = n ++ "|" ++ joinBar (m :: rest2) := rfl
      rw [hstep, sumLens_cons]
      simp only [String.length_append]
      rw [show ("|" : String).length = 1 from rfl]
      omega

theorem batchNames_flatten (maxLen : Nat) :
    ∀ (l batch : List String) (cur : Nat),
      (batchNames maxLen l batch cur).flatten = batch.reverse ++ l := by
  intro l
  induction l with
  | nil =>
    intro batch cur
    by_cases hb : batch = []
    · subst hb; simp [batchNames]
    · simp [batchNames, hb]
  | cons name rest ih =>
    intro batch cur
    by_cases hcond : cur + name.length + 1 > maxLen ∧ batch ≠ []
    · simp [batchNames, hcond, ih]
    · simp [batchNames, hcond, ih]

theorem jsLeb_cons {a b : Char} {as bs : List Char} :
    jsLeb (a :: as) (b :: bs) = true ↔ (a < b ∨ (a = b ∧ jsLeb as bs = true)) := by
  rcases lt_trichotomy a b with h | h | h
  · simp [jsLeb, h]
  · subst h; simp [jsLeb, lt_irrefl]
  · have h1 : ¬ a < b := not_lt.mpr h.le
    have h2 : a ≠ b := ne_of_gt h
    simp [jsLeb, h1, h, h2]

theorem jsLeb_total : ∀ (as bs : List Char), jsLeb as bs = true ∨ jsLeb bs as = true := by
  intro as
  induction as with
  | nil => intro bs; left; rfl
  | cons a as ih =>
    intro bs
    rcases bs with _ | ⟨b, bs⟩
    · right; rfl
    · rcases lt_trichotomy a b with h | h | h
      · left; exact jsLeb_cons.mpr (Or.inl h)
      · subst h
        rcases ih bs with h2 | h2
        · left; exact jsLeb_cons.mpr (Or.inr ⟨rfl, h2⟩)
        · right; exact jsLeb_cons.mpr (Or.inr ⟨rfl, h2⟩)
      · right; exact jsLeb_cons.mpr (Or.inl h)

theorem jsLeb_trans : ∀ (as bs cs : List Char),
    jsLeb as bs = true → jsLeb bs cs = true → jsLeb as cs = true := by
  intro as
  induction as with
  | nil => intros; rfl
  | cons a as ih =>
    intro bs cs h1 h2
    rcases bs with _ | ⟨b, bs⟩
    · simp [jsLeb] at h1
    · rcases cs with _ | ⟨c, cs⟩
      · simp [jsLeb] at h2
      · rcases jsLeb_cons.mp h1 with hab | ⟨hab, hab2⟩
        · rcases jsLeb_cons.mp h2 with hbc | ⟨hbc, _⟩
          · exact jsLeb_cons.mpr (Or.inl (hab.trans hbc))
          · exact jsLeb_cons.mpr (Or.inl (hbc ▸ hab))
        · rcases jsLeb_cons.mp h2 with hbc | ⟨hbc, hbc2⟩
          · exact jsLeb_cons.mpr (Or.inl (hab ▸ hbc))
          · exact jsLeb_cons.mpr (Or.inr ⟨hab.trans hbc, ih bs cs hab2 hbc2⟩)

instance : IsTotal String (fun a b => strLeb a b = true) :=
  ⟨fun a b => jsLeb_total a.data b.data⟩

instance : IsTrans String (fun a b => strLeb a b = true) :=
  ⟨fun a b c => jsLeb_trans a.data b.data c.data⟩

theorem setDedupAux_mem : ∀ (l seen : List String) (x : String),
    x ∈ setDedupAux seen l ↔ (x ∈ l ∧ x ∉ seen) := by
  intro l
  induction l with
  | nil => intro seen x; simp [setDedupAux]
  | cons y rest ih =>
    intro seen x
    by_cases hy : y ∈ seen
    · simp only [setDedupAux, if_pos hy, ih, List.mem_cons]
      constructor
      · rintro ⟨h1, h2⟩; exact ⟨Or.inr h1, h2⟩
      · rintro ⟨h1 | h1, h2⟩
        · exact absurd (h1 ▸ hy) h2
        · exact ⟨h1, h2⟩
    · simp only [setDedupAux, if_neg hy, List.mem_cons, ih]
      by_cases hxy : x = y
      · subst hxy; simp [hy]
      · simp [hxy]

theorem setDedupAux_nodup : ∀ (l seen : List String), (setDedupAux seen l).Nodup := by
  intro l
  induction l with
  | nil => intro seen; simp [setDedupAux]
  | cons y rest ih =>
    intro seen
    by_cases hy : y ∈ seen
    · simp only [setDedupAux, if_pos hy]; exact ih seen
    · simp only [setDedupAux, if_neg hy]
      rw [List.nodup_cons]
      refine ⟨fun hmem => ?_, ih (y :: seen)⟩
      exact ((setDedupAux_mem rest (y :: seen) y).mp hmem).2 (by simp)

theorem batchNames_sumLens_le (maxLen : Nat) :
    ∀ (l batch : List String) (cur : Nat),
      (∀ n ∈ l, n.length ≤ maxLen) → cur = sumLens batch →
      (batch ≠ [] → cur ≤ maxLen + 1) →
      ∀ b ∈ batchNames maxLen l batch cur, sumLens b ≤ maxLen + 1 := by
  intro l
  induction l with
  | nil =>
    intro batch cur _ hcur hbound b hb
    by_cases hbatch : batch = []
    · subst hbatch; simp [batchNames] at hb
    · simp only [batchNames, if_neg hbatch] at hb
      simp only [List.mem_singleton] at hb
      subst hb
      rw [sumLens_reverse, ← hcur]
      exact hbound hbatch
  | cons name rest ih =>
    intro batch cur hl hcur hbound b hb
    have hname : name.length ≤ maxLen := hl name (by simp)
    have hltail : ∀ n ∈ rest, n.length ≤ maxLen := fun n hn => hl n (by simp [hn])
    by_cases hcond : cur + name.length + 1 > maxLen ∧ batch ≠ []
    · simp only [batchNames, if_pos hcond, List.mem_cons] at hb
      rcases hb with hb | hb
      · subst hb
        rw [sumLens_reverse, ← hcur]
        exact hbound hcond.2
      · refine ih [name] (name.length + 1) hltail ?_ ?_ b hb
        · simp [sumLens]
        · intro _; omega
    · simp only [batchNames, if_neg hcond] at hb
      refine ih (name :: batch) (cur + name.length + 1) hltail ?_ ?_ b hb
      · rw [sumLens_cons, ← hcur]; omega
      · intro _
        rcases not_and_or.mp hcond with h | h
        · omega
        · have hbe : batch = [] := not_not.mp h
          subst hbe
          simp [sumLens_nil] at hcur
          omega

/-- Claim C6 (amended): for every input list of symbol names in which each
name is at most 4000 characters long, the emitted blocks satisfy: within each
block the names are unique and strictly increasing in the lexicographic
(JavaScript sort) order; no block's alternation text exceeds 4000 characters;
and the union of the blocks is exactly the deduplicated input set, no name
omitted and none in two blocks.  (Without the length proviso a single
over-long name still forms its own block, whose alternation exceeds 4000
characters — see the counterexample.) -/
theorem matchBlocks_invariants (names : List String)
    (hlen : ∀ n ∈ names, n.length ≤ 4000) :
    (∀ b ∈ matchBatches names 4000, b.Pairwise (fun a b => strLeb a b = true ∧ a ≠ b)) ∧
    (∀ b ∈ matchBatches names 4000, (joinBar b).length ≤ 4000) ∧
    (matchBatches names 4000).flatten.Nodup ∧
    (matchBatches names 4000).flatten.Perm (setDedup names) := by
  have hflat : (matchBatches names 4000).flatten = sortNames (setDedup names) := by
    have := batchNames_flatten 4000 (sortNames (setDedup names)) [] 0
    simpa [matchBatches] using this
  have hperm : (sortNames (setDedup names)).Perm (setDedup names) :=
    List.perm_insertionSort _ _
  have hndDedup : (setDedup names).Nodup := setDedupAux_nodup names []
  have hnd : (sortNames (setDedup names)).Nodup := hperm.nodup_iff.mpr hndDedup
  have hsorted : (sortNames (setDedup names)).Pairwise (fun a b => strLeb a b = true) :=
    List.sorted_insertionSort _ _
  have hstrict : (sortNames (setDedup names)).Pairwise
      (fun a b => strLeb a b = true ∧ a ≠ b) :=
    hsorted.imp₂ (fun _ _ h hne => ⟨h, hne⟩) hnd
  refine ⟨?_, ?_, ?_, ?_⟩
  · intro b hb
    have hsub : b.Sublist (matchBatches names 4000).flatten :=
      List.sublist_flatten_of_mem hb
    rw [hflat] at hsub
    exact hstrict.sublist hsub
  · intro b hb
    by_cases hbe : b = []
    · subst hbe; simp [joinBar]
    · have hbound : sumLens b ≤ 4000 + 1 := by
        refine batchNames_sumLens_le 4000 (sortNames (setDedup names)) [] 0 ?_ rfl
          (by simp) b hb
        intro n hn
        have h1 : n ∈ setDedup names := hperm.mem_iff.mp hn
        exact hlen n ((setDedupAux_mem names [] n).mp h1).1
      have := joinBar_length b hbe
      omega
  · rw [hflat]; exact hnd
  · rw [hflat]; exact hperm

theorem matchBlocks_invariants_witness :
    (∀ n ∈ ["Abs", "Add", "Abs"], n.length ≤ 4000) ∧
    ((∀ b ∈ matchBatches ["Abs", "Add", "Abs"] 4000,
        b.Pairwise (fun a b => strLeb a b = true ∧ a ≠ b)) ∧
     (∀ b ∈ matchBatches ["Abs", "Add", "Abs"] 4000, (joinBar b).length ≤ 4000) ∧
     (matchBatches ["Abs", "Add", "Abs"] 4000).flatten.Nodup ∧
     (matchBatches ["Abs", "Add", "Abs"] 4000).flatten.Perm (setDedup ["Abs", "Add", "Abs"])) :=
  ⟨by decide, matchBlocks_invariants ["Abs", "Add", "Abs"] (by decide)⟩

/-- Claim C6 counterexample: a single input name of 4001 characters is
pushed unconditionally (the batching loop only flushes when the current
batch is nonempty), so it forms a block whose alternation text has 4001
characters, exceeding the 4000-character limit the claim asserts for every
input list. -/
theorem matchBlocks_overlong_counterexample :
    matchBatches [String.mk (List.replicate 4001 'A')] 4000 =
      [[String.mk (List.replicate 4001 'A')]] ∧
    4000 < (joinBar [String.mk (List.replicate 4001 'A')]).length := by
  have hlen : (String.mk (List.replicate 4001 'A')).length = 4001 :=
    List.length_replicate 4001 'A'
  constructor
  · have h1 : setDedup [String.mk (List.replicate 4001 'A')] =
        [String.mk (List.replicate 4001 'A')] := by
      simp [setDedup, setDedupAux]
    have h2 : sortNames [String.mk (List.replicate 4001 'A')] =
        [String.mk (List.replicate 4001 'A')] := by
      simp [sortNames]
    simp only [matchBatches, h1, h2]
    simp [batchNames]
  · have : joinBar [String.mk (List.replicate 4001 'A')] =
        String.mk (List.replicate 4001 'A') := rfl
    rw [this, hlen]
    omega

theorem REMatch_alt_iff {t : List Char} {i j : Nat} {a b : RE} :
    REMatch t i j (.alt a b) ↔ (REMatch t i j a ∨ REMatch t i j b) := by
  constructor
  · intro h
    cases h with
    | altL h => exact Or.inl h
    | altR h => exact Or.inr h
  · rintro (h | h)
    · exact REMatch.altL h
    · exact REMatch.altR h

theorem drop_succ_of_drop_cons {t xs : List Char} {x : Char} {i : Nat}
    (h : t.drop i = x :: xs) : t.drop (i + 1) = xs := by
  have htail := List.tail_drop t i
  rw [h] at htail
  simpa using htail.symm

theorem REMatch_litRE {t : List Char} :
    ∀ (w : List Char) (i j : Nat),
      REMatch t i j (litRE w) ↔ (j = i + w.length ∧ (t.drop i).take w.length = w) := by
  intro w
  induction w with
  | nil =>
    intro i j
    constructor
    · intro h; cases h; simp
    · rintro ⟨hj, _⟩
      have hji : j = i := by simpa using hj
      subst hji
      exact REMatch.eps j
  | cons c w ih =>
    intro i j
    constructor
    · intro h
      cases h with
      | seq h1 h2 =>
        cases h1 with
        | char _ _ hc =>
          rcases (ih (i + 1) j).mp h2 with ⟨hj, htake⟩
          cases hdrop : t.drop i with
          | nil => rw [hdrop] at hc; simp at hc
          | cons x xs =>
            rw [hdrop] at hc
            simp at hc
            have hxs : t.drop (i + 1) = xs := drop_succ_of_drop_cons hdrop
            refine ⟨by simp only [hj, List.length_cons]; omega, ?_⟩
            simp only [List.length_cons, List.take_succ_cons]
            rw [← hxs, htake, hc]
    · rintro ⟨hj, htake⟩
      cases hdrop : t.drop i with
      | nil => rw [hdrop] at htake; simp at htake
      | cons x xs =>
        rw [hdrop] at htake
        simp only [List.length_cons, List.take_succ_cons, List.cons_eq_cons] at htake
        rcases htake with ⟨hxc, htake2⟩
        have hxs : t.drop (i + 1) = xs := drop_succ_of_drop_cons hdrop
        have hchar : REMatch t i (i + 1) (.char c) := by
          refine REMatch.char i c ?_
          rw [hdrop]
          simp [hxc]
        have hrest : REMatch t (i + 1) j (litRE w) := by
          refine (ih (i + 1) j).mpr ⟨?_, ?_⟩
          · simp only [List.length_cons] at hj
            omega
          · rw [hxs]
            exact htake2
        exact REMatch.seq hchar hrest

theorem REMatch_foldl_alt {t : List Char} {i j : Nat} :
    ∀ (rs : List RE) (acc : RE),
      REMatch t i j (rs.foldl (fun a x => RE.alt a x) acc) ↔
        (REMatch t i j acc ∨ ∃ r ∈ rs, REMatch t i j r) := by
  intro rs
  induction rs with
  | nil => intro acc; simp
  | cons x rs ih =>
    intro acc
    simp only [List.foldl_cons]
    rw [ih (RE.alt acc x), REMatch_alt_iff]
    constructor
    · rintro ((h | h) | ⟨r, hr, h⟩)
      · exact Or.inl h
      · exact Or.inr ⟨x, by simp, h⟩
      · exact Or.inr ⟨r, by simp [hr], h⟩
    · rintro (h | ⟨r, hr, h⟩)
      · exact Or.inl (Or.inl h)
      · rcases List.mem_cons.mp hr with rfl | hr2
        · exact Or.inl (Or.inr h)
        · exact Or.inr ⟨r, hr2, h⟩

theorem REMatch_altOf {t : List Char} {i j : Nat} {rs : List RE} (hne : rs ≠ []) :
    REMatch t i j (altOf rs) ↔ ∃ r ∈ rs, REMatch t i j r := by
  rcases rs with _ | ⟨r0, rs⟩
  · exact absurd rfl hne
  · simp only [altOf]
    rw [REMatch_foldl_alt]
    constructor
    · rintro (h | ⟨r, hr, h⟩)
      · exact ⟨r0, by simp, h⟩
      · exact ⟨r, by simp [hr], h⟩
    · rintro ⟨r, hr, h⟩
      rcases List.mem_cons.mp hr with rfl | hr2
      · exact Or.inl h
      · exact Or.inr ⟨r, hr2, h⟩

theorem REMatch_seq_inv {t : List Char} {i j : Nat} {a b : RE}
    (h : REMatch t i j (RE.seq a b)) : ∃ k, REMatch t i k a ∧ REMatch t k j b := by
  cases h with
  | seq h1 h2 => exact ⟨_, h1, h2⟩

theorem REMatch_bol_inv {t : List Char} {i j : Nat}
    (h : REMatch t i j RE.bol) : i = 0 ∧ j = 0 := by
  cases h; exact ⟨rfl, rfl⟩

theorem REMatch_eol_inv {t : List Char} {i j : Nat}
    (h : REMatch t i j RE.eol) : i = t.length ∧ j = t.length := by
  cases h; exact ⟨rfl, rfl⟩

/-- Claim C10: every generated match block binds its capture through the
anchored regex `^(n1|...|nk)$` (first conjunct: the exact text emitted by
`formatMatchBlock`), and under standard regex semantics that doubly anchored
alternation of the block's literal, symbol-shaped names (which contain no
regex metacharacters) has a match in a node's text exactly when the entire
text equals one of the listed names — never on a proper substring, prefix,
or suffix (second conjunct, over `blockRE`, the abstract syntax of that
regex text). -/
theorem matchBlock_exact_names (capture nodeType : String) (names : List String)
    (t : String) (hne : names ≠ [])
    (hvalid : ∀ n ∈ names, isValidSymbolName n.data = true) :
    (formatMatchBlock capture names nodeType =
      "((" ++ nodeType ++ ") @" ++ capture ++ "\n  (#match? @" ++ capture ++ " \"" ++
        ("^(" ++ joinBar names ++ ")$") ++ "\"))") ∧
    ((∃ i j, REMatch t.data i j (blockRE (names.map String.data))) ↔ t ∈ names) := by
  refine ⟨rfl, ?_⟩
  have hne3 : (names.map String.data).map litRE ≠ [] := by
    simp only [ne_eq, List.map_eq_nil_iff]
    exact hne
  constructor
  · rintro ⟨i, j, h⟩
    obtain ⟨k, h1, h2⟩ := REMatch_seq_inv h
    obtain ⟨rfl, rfl⟩ := REMatch_bol_inv h1
    obtain ⟨m, h3, h4⟩ := REMatch_seq_inv h2
    obtain ⟨hm, hj⟩ := REMatch_eol_inv h4
    subst hm
    rw [REMatch_altOf hne3] at h3
    rcases h3 with ⟨r, hr, hmatch⟩
    rcases List.mem_map.mp hr with ⟨w, hw, rfl⟩
    rcases List.mem_map.mp hw with ⟨n, hn, rfl⟩
    rcases (REMatch_litRE n.data 0 t.data.length).mp hmatch with ⟨hlenEq, htake⟩
    have hLL : n.data.length = t.data.length := by omega
    rw [List.drop_zero, hLL, List.take_length] at htake
    have hteq : t = n := String.ext htake
    rw [hteq]
    exact hn
  · intro ht
    refine ⟨0, t.data.length, ?_⟩
    refine REMatch.seq REMatch.bol (REMatch.seq ?_ REMatch.eol)
    rw [REMatch_altOf hne3]
    refine ⟨litRE t.data, ?_, ?_⟩
    · exact List.mem_map.mpr ⟨t.data, List.mem_map.mpr ⟨t, ht, rfl⟩, rfl⟩
    · refine (REMatch_litRE t.data 0 t.data.length).mpr ⟨by omega, ?_⟩
      simp [List.take_length]

theorem matchBlock_exact_names_witness :
    ((∃ i j, REMatch ("Abs" : String).data i j (blockRE (["Abs"].map String.data))) ↔
      ("Abs" : String) ∈ ["Abs"]) ∧
    ¬ (∃ i j, REMatch ("Ab" : String).data i j (blockRE (["Abs"].map String.data))) := by
  have h1 := matchBlock_exact_names "function.builtin" "symbol" ["Abs"] "Abs"
    (by simp) (by decide)
  have h2 := matchBlock_exact_names "function.builtin" "symbol" ["Abs"] "Ab"
    (by simp) (by decide)
  exact ⟨h1.2, fun hex => absurd (h2.2.mp hex) (by decide)⟩

/-- Claim C7: in every highlight document the generator assembles, the
generic all-symbols fallback rule (`(symbol) @variable`) appears strictly
before every scope-specific match-block section derived from the extracted
symbol data: the section list splits as a fixed prefix containing the
fallback, then all the scope-derived sections, then the fixed operator
suffix, and the document is the in-order join of those sections. -/
theorem highlight_generic_before_scoped (symbolsByScope : List (String × List String)) :
    ∃ pre post : List String,
      buildSections symbolsByScope = pre ++ scopeSections symbolsByScope ++ post ∧
      symbolFallbackSection ∈ pre ∧
      buildHighlights symbolsByScope =
        String.intercalate "\n\n" (pre ++ scopeSections symbolsByScope ++ post) ++ "\n" := by
  refine ⟨[headerSection, commentSection, stringSection, numberSection, symbolFallbackSection,
    callSection, systemVarSection],
    [assignmentSection, ruleOpSection, comparisonSection, logicalSection,
     arithmeticSection, applicationSection, otherOpSection, delimiterSection,
     separatorSection], rfl, by simp, rfl⟩

/-- Claim C8: the generator is deterministic in its input — two runs over
equal grammar description documents produce byte-identical highlight and
bracket output documents, and re-running over the state left by a first run
reproduces exactly the same state (idempotence). -/
theorem generator_deterministic (st st2 : GenState) (hg : st.grammar = st2.grammar) :
    ((runGenerator st).highlightsOut = (runGenerator st2).highlightsOut ∧
     (runGenerator st).bracketsOut = (runGenerator st2).bracketsOut) ∧
    runGenerator (runGenerator st) = runGenerator st := by
  refine ⟨?_, rfl⟩
  simp [runGenerator, hg]

theorem generator_deterministic_witness :
    (((runGenerator ⟨⟨[]⟩, none, none⟩).highlightsOut =
        (runGenerator ⟨⟨[]⟩, some "stale", some "stale"⟩).highlightsOut) ∧
     ((runGenerator ⟨⟨[]⟩, none, none⟩).bracketsOut =
        (runGenerator ⟨⟨[]⟩, some "stale", some "stale"⟩).bracketsOut)) ∧
    runGenerator (runGenerator ⟨⟨[]⟩, none, none⟩) = runGenerator ⟨⟨[]⟩, none, none⟩ :=
  generator_deterministic ⟨⟨[]⟩, none, none⟩ ⟨⟨[]⟩, some "stale", some "stale"⟩ rfl
